import Mathlib

/-!
Singly linked list with head and tail pointers (`linkedList.cpp`)

A shallow embedding of the `Node` and `LinkedList` classes and of the driver.

* The free store is a list of nodes; the address of a node is its index, and
  `new Node(data)` places the node at the first unused address.
* A pointer is an `Option Nat`: `none` is `NULL`.
* Every method takes the state before the call and returns the state after
  it, or a `Fault` when the execution reaches an operation without defined
  behaviour (or, for a loop, does not finish within its fuel).
* `int` values are integers; the two places where an `int` is computed
  (`pos-1` and `cnt++`) check the 32-bit range.
-/

namespace LinkedListCpp

/-- Ways an execution can leave defined behaviour. -/
inductive Fault where
  | nullDeref
  | badPointer
  | signedOverflow
  | diverges
  deriving DecidableEq, Repr

/-- Class `Node`: `int data; Node* next;`. -/
structure Node where
  data : Int
  next : Option Nat
  deriving DecidableEq, Repr

/-- Constructor `Node(int data)`: stores the value, `next = NULL`. -/
def Node.new (data : Int) : Node := ⟨data, none⟩

/-- Class `LinkedList` together with the free store its pointers refer to. -/
structure LinkedList where
  heap : List Node
  head : Option Nat
  tail : Option Nat
  deriving DecidableEq, Repr

/-- Smallest value of a 32-bit `int`. -/
def INT_MIN : Int := -2147483648

/-- Largest value of a 32-bit `int`. -/
def INT_MAX : Int := 2147483647

/-- Read of the node behind pointer `p` (as in `p->data`, `p->next`). -/
def deref (heap : List Node) (p : Option Nat) : Except Fault Node :=
  match p with
  | none => .error .nullDeref
  | some a =>
    match heap[a]? with
    | some n => .ok n
    | none => .error .badPointer

/-- Assignment `p->next = q`. -/
def setNext (heap : List Node) (p : Option Nat) (q : Option Nat) :
    Except Fault (List Node) :=
  match p with
  | none => .error .nullDeref
  | some a =>
    match heap[a]? with
    | some n => .ok (heap.set a ⟨n.data, q⟩)
    | none => .error .badPointer

/-- Constructor `LinkedList()`: `head = NULL; tail = NULL;`, nothing allocated. -/
def LinkedList.new : LinkedList := ⟨[], none, none⟩

/-- Method `insertAtHead(int data)`. -/
def LinkedList.insertAtHead (l : LinkedList) (data : Int) : Except Fault LinkedList :=
  -- Node* temp = new Node(data);
  let temp : Option Nat := some l.heap.length
  let heap := l.heap ++ [Node.new data]
  -- if(head == NULL){ head = temp; tail = temp; return; }
  if l.head = none then
    .ok ⟨heap, temp, temp⟩
  else
    -- temp->next = head;
    match setNext heap temp l.head with
    | .error e => .error e
    | .ok heap1 =>
      -- head = temp;
      .ok ⟨heap1, temp, l.tail⟩

/-- Method `insertAtTail(int data)`. -/
def LinkedList.insertAtTail (l : LinkedList) (data : Int) : Except Fault LinkedList :=
  -- Node* temp = new Node(data);
  let temp : Option Nat := some l.heap.length
  let heap := l.heap ++ [Node.new data]
  -- if(head == NULL){ head = temp; tail = temp; return; }
  if l.head = none then
    .ok ⟨heap, temp, temp⟩
  else
    -- tail->next = temp;
    match setNext heap l.tail temp with
    | .error e => .error e
    | .ok heap1 =>
      -- tail = temp;
      .ok ⟨heap1, l.head, temp⟩

/-- The `while` loop of `insertAtPos`, one iteration per unit of fuel.
The result is the free store when the loop is left. -/
def insertAtPosLoop : Nat → List Node → Option Nat → Option Nat → Int → Int →
    Except Fault (List Node)
  | 0, _, _, _, _, _ => .error .diverges
  | fuel + 1, heap, temp, curr, cnt, pos =>
    -- curr != NULL && ...   (the right operand is evaluated only if the left holds)
    if curr = none then .ok heap
    -- pos-1
    else if pos - 1 < INT_MIN then .error .signedOverflow
    -- ... && cnt < pos-1
    else if cnt < pos - 1 then
      -- if(cnt == pos){ Node* forward = curr->next; curr->next = temp; temp->next = forward; }
      let spliced : Except Fault (List Node) :=
        if cnt = pos then
          match deref heap curr with
          | .error e => .error e
          | .ok c =>
            match setNext heap curr temp with
            | .error e => .error e
            | .ok heap1 => setNext heap1 temp c.next
        else .ok heap
      match spliced with
      | .error e => .error e
      | .ok heap2 =>
        -- curr = curr->next;
        match deref heap2 curr with
        | .error e => .error e
        | .ok c =>
          -- cnt++;
          if INT_MAX < cnt + 1 then .error .signedOverflow
          else insertAtPosLoop fuel heap2 temp c.next (cnt + 1) pos
    else .ok heap

/-- Method `insertAtPos(int pos, int data)`.  The loop counter starts at 1 and
grows by one per iteration while it is below `pos-1`, so `pos-2` iterations
(and one more test of the condition) are the most the loop can make. -/
def LinkedList.insertAtPos (l : LinkedList) (pos : Int) (data : Int) :
    Except Fault LinkedList :=
  -- if(pos == 1){ insertAtHead(data); return; }
  if pos = 1 then l.insertAtHead data
  else
    -- Node* temp = new Node(data);
    let temp : Option Nat := some l.heap.length
    let heap := l.heap ++ [Node.new data]
    -- Node* curr = head; int cnt = 1; while(...){...}
    match insertAtPosLoop ((pos - 2).toNat + 1) heap temp l.head 1 pos with
    | .error e => .error e
    | .ok heap1 => .ok ⟨heap1, l.head, l.tail⟩

/-- The `while(curr != NULL)` loop of `print`; `out` is the text written so far. -/
def printLoop : Nat → List Node → Option Nat → String → Except Fault String
  | 0, _, _, _ => .error .diverges
  | fuel + 1, heap, curr, out =>
    if curr = none then .ok out
    else
      match deref heap curr with
      | .error e => .error e
      | .ok c =>
        -- cout<<curr->data<<" -> "; curr = curr->next;
        printLoop fuel heap c.next (out ++ toString c.data ++ " -> ")

/-- Method `print()`: the state after the call and the text written to `cout`.
A chain without a cycle has at most as many nodes as the free store, so the
loop is given one test of its condition more than that. -/
def LinkedList.print (l : LinkedList) : Except Fault (LinkedList × String) :=
  match printLoop (l.heap.length + 1) l.heap l.head "" with
  | .error e => .error e
  | .ok out =>
    -- cout<<"NULL"; cout<<endl;
    .ok (l, out ++ "NULL" ++ "\n")

/-- Function `main` up to the call of `print`: the list the driver prints. -/
def mainList : Except Fault LinkedList :=
  match LinkedList.new.insertAtHead 10 with
  | .error e => .error e
  | .ok r1 =>
  match r1.insertAtHead 5 with
  | .error e => .error e
  | .ok r2 =>
  match r2.insertAtHead 1 with
  | .error e => .error e
  | .ok r3 =>
  match r3.insertAtTail 20 with
  | .error e => .error e
  | .ok r4 => r4.insertAtPos 2 100

/-- Function `main`: the text the driver writes to `cout`. -/
def main : Except Fault String :=
  match mainList with
  | .error e => .error e
  | .ok root =>
    match root.print with
    | .error e => .error e
    | .ok (_, out) => .ok out

/-! ## Observers and call sequences used to state the properties -/

/-- The values met when walking from `curr` along `next` until `NULL`: the
traversal of `print`, collecting each `curr->data` instead of writing it. -/
def elementsLoop : Nat → List Node → Option Nat → Except Fault (List Int)
  | 0, _, _ => .error .diverges
  | fuel + 1, heap, curr =>
    if curr = none then .ok []
    else
      match deref heap curr with
      | .error e => .error e
      | .ok c =>
        match elementsLoop fuel heap c.next with
        | .error e => .error e
        | .ok xs => .ok (c.data :: xs)

/-- Element sequence of the list, read from `head`. -/
def LinkedList.elements (l : LinkedList) : Except Fault (List Int) :=
  elementsLoop (l.heap.length + 1) l.heap l.head

/-- Each element in decimal followed by the arrow marker, in order. -/
def renderElems : List Int → String
  | [] => ""
  | x :: xs => toString x ++ " -> " ++ renderElems xs

/-- Text `print` writes for an element sequence: every element in decimal
followed by the arrow, then `NULL` and a line break. -/
def render (xs : List Int) : String :=
  renderElems xs ++ "NULL" ++ "\n"

/-- One call of an insert method. -/
inductive Op where
  | atHead (data : Int)
  | atTail (data : Int)
  | atPos (pos : Int) (data : Int)
  deriving DecidableEq, Repr

/-- Effect of one call. -/
def LinkedList.call (l : LinkedList) : Op → Except Fault LinkedList
  | .atHead d => l.insertAtHead d
  | .atTail d => l.insertAtTail d
  | .atPos p d => l.insertAtPos p d

/-- Effect of a sequence of calls, made in order. -/
def LinkedList.calls (l : LinkedList) : List Op → Except Fault LinkedList
  | [] => .ok l
  | op :: ops =>
    match l.call op with
    | .error e => .error e
    | .ok l1 => l1.calls ops

/-- A `pos` argument a call can carry: a 32-bit `int`. -/
def Op.inRange : Op → Prop
  | .atPos p _ => INT_MIN ≤ p ∧ p ≤ INT_MAX
  | _ => True

instance (op : Op) : Decidable op.inRange := by
  cases op <;> unfold Op.inRange <;> infer_instance

deriving instance DecidableEq for Except

/-! ## Representation of a well-formed list -/

/-- Walking from `p` along `next` visits exactly the cells `cs` (address and
stored value, in order) and then reaches `NULL`. -/
def Chain (heap : List Node) : Option Nat → List (Nat × Int) → Prop
  | p, [] => p = none
  | p, (a, x) :: cs => p = some a ∧ ∃ q, heap[a]? = some ⟨x, q⟩ ∧ Chain heap q cs

/-- The list `l` is well formed with cells `cs`: the chain from `head` is
`cs`, no node occurs twice, and `tail` is the last node of the chain (`NULL`
for the empty chain). -/
structure Rep (l : LinkedList) (cs : List (Nat × Int)) : Prop where
  chain : Chain l.heap l.head cs
  nodup : (cs.map Prod.fst).Nodup
  last : l.tail = (cs.map Prod.fst).getLast?

/-- The node the walk from `curr` along `next` stops at: the last node met
before `NULL` (`prev` when `curr` is already `NULL`). -/
def lastLoop : Nat → List Node → Option Nat → Option Nat → Except Fault (Option Nat)
  | 0, _, _, _ => .error .diverges
  | fuel + 1, heap, curr, prev =>
    if curr = none then .ok prev
    else
      match deref heap curr with
      | .error e => .error e
      | .ok c => lastLoop fuel heap c.next curr

/-- Last node reachable from `head` along `next` links (`NULL` for the empty
chain). -/
def LinkedList.lastNode (l : LinkedList) : Except Fault (Option Nat) :=
  lastLoop (l.heap.length + 1) l.heap l.head none

/-- The loop of `insertAtPos` with the block `if(cnt == pos){ ... }` deleted:
the cursor only walks. -/
def insertAtPosWalk : Nat → List Node → Option Nat → Int → Int → Except Fault (List Node)
  | 0, _, _, _, _ => .error .diverges
  | fuel + 1, heap, curr, cnt, pos =>
    if curr = none then .ok heap
    else if pos - 1 < INT_MIN then .error .signedOverflow
    else if cnt < pos - 1 then
      match deref heap curr with
      | .error e => .error e
      | .ok c =>
        if INT_MAX < cnt + 1 then .error .signedOverflow
        else insertAtPosWalk fuel heap c.next (cnt + 1) pos
    else .ok heap

/-- Whether the call is an `insertAtPos`. -/
def Op.isAtPos : Op → Bool
  | .atPos _ _ => true
  | _ => false

/-- Values passed to `insertAtHead`, in call order. -/
def headValues : List Op → List Int
  | [] => []
  | .atHead d :: ops => d :: headValues ops
  | .atTail _ :: ops => headValues ops
  | .atPos _ _ :: ops => headValues ops

/-- Values passed to `insertAtTail`, in call order. -/
def tailValues : List Op → List Int
  | [] => []
  | .atHead _ :: ops => tailValues ops
  | .atTail d :: ops => d :: tailValues ops
  | .atPos _ _ :: ops => tailValues ops

theorem chain_lt {heap : List Node} :
    ∀ {cs : List (Nat × Int)} {p : Option Nat}, Chain heap p cs →
      ∀ a ∈ cs.map Prod.fst, a < heap.length := by
  intro cs
  induction cs with
  | nil => intro p _ a ha; simp at ha
  | cons c cs ih =>
    obtain ⟨b, x⟩ := c
    intro p h a ha
    obtain ⟨_, q, hq, hc⟩ := h
    rw [List.map_cons, List.mem_cons] at ha
    rcases ha with rfl | ha
    · exact (List.getElem?_eq_some.mp hq).1
    · exact ih hc a ha

theorem chain_congr {heap heap1 : List Node} :
    ∀ {cs : List (Nat × Int)} {p : Option Nat}, Chain heap p cs →
      (∀ a ∈ cs.map Prod.fst, heap1[a]? = heap[a]?) → Chain heap1 p cs := by
  intro cs
  induction cs with
  | nil => intro p h _; exact h
  | cons c cs ih =>
    obtain ⟨b, x⟩ := c
    intro p h hframe
    obtain ⟨hp, q, hq, hc⟩ := h
    refine ⟨hp, q, ?_, ih hc (fun a ha => hframe a (by simp [ha]))⟩
    rw [hframe b (by simp), hq]

theorem chain_length_le {heap : List Node} {cs : List (Nat × Int)} {p : Option Nat}
    (h : Chain heap p cs) (hnd : (cs.map Prod.fst).Nodup) : cs.length ≤ heap.length := by
  have hsub : cs.map Prod.fst ⊆ List.range heap.length := by
    intro a ha
    exact List.mem_range.mpr (chain_lt h a ha)
  have := (hnd.subperm hsub).length_le
  simpa using this

theorem chain_head_none {heap : List Node} {cs : List (Nat × Int)}
    (h : Chain heap none cs) : cs = [] := by
  cases cs with
  | nil => rfl
  | cons c cs => obtain ⟨b, x⟩ := c; exact absurd h.1 (by simp)

theorem chain_unique {heap : List Node} :
    ∀ {cs cs1 : List (Nat × Int)} {p : Option Nat}, Chain heap p cs → Chain heap p cs1 →
      cs = cs1 := by
  intro cs
  induction cs with
  | nil =>
    intro cs1 p h h1
    have hp : p = none := h
    subst hp
    exact (chain_head_none h1).symm
  | cons c cs ih =>
    obtain ⟨b, x⟩ := c
    intro cs1 p h h1
    obtain ⟨hp, q, hq, hc⟩ := h
    cases cs1 with
    | nil =>
      have hp1 : p = none := h1
      rw [hp1] at hp
      exact absurd hp (by simp)
    | cons c1 cs1 =>
      obtain ⟨b1, x1⟩ := c1
      obtain ⟨hp1, q1, hq1, hc1⟩ := h1
      rw [hp] at hp1
      have hb : b = b1 := Option.some.inj hp1
      subst hb
      rw [hq] at hq1
      have hn : (⟨x, q⟩ : Node) = ⟨x1, q1⟩ := Option.some.inj hq1
      have hx : x = x1 := congrArg Node.data hn
      have hqq : q = q1 := congrArg Node.next hn
      subst hx
      subst hqq
      rw [ih hc hc1]

theorem deref_some {heap : List Node} {a : Nat} {n : Node} (h : heap[a]? = some n) :
    deref heap (some a) = .ok n := by
  simp [deref, h]

theorem setNext_some {heap : List Node} {a : Nat} {n : Node} (h : heap[a]? = some n)
    (q : Option Nat) : setNext heap (some a) q = .ok (heap.set a ⟨n.data, q⟩) := by
  simp [setNext, h]

/-- Text written by the loop of `print` for the values `xs`, after `out`. -/
theorem printLoop_chain {heap : List Node} :
    ∀ (fuel : Nat) {cs : List (Nat × Int)} {p : Option Nat} (out : String),
      Chain heap p cs → cs.length < fuel →
      printLoop fuel heap p out
        = .ok ((cs.map Prod.snd).foldl (fun o x => o ++ toString x ++ " -> ") out) := by
  intro fuel
  induction fuel with
  | zero => intro cs p out _ hlen; exact absurd hlen (Nat.not_lt_zero _)
  | succ fuel ih =>
    intro cs p out h hlen
    cases cs with
    | nil =>
      have hp : p = none := h
      subst hp
      simp [printLoop]
    | cons c cs =>
      obtain ⟨b, x⟩ := c
      obtain ⟨hp, q, hq, hc⟩ := h
      subst hp
      have hlen1 : cs.length < fuel := by simpa using hlen
      simp [printLoop, deref_some hq, ih _ hc hlen1]

theorem elementsLoop_chain {heap : List Node} :
    ∀ (fuel : Nat) {cs : List (Nat × Int)} {p : Option Nat},
      Chain heap p cs → cs.length < fuel →
      elementsLoop fuel heap p = .ok (cs.map Prod.snd) := by
  intro fuel
  induction fuel with
  | zero => intro cs p _ hlen; exact absurd hlen (Nat.not_lt_zero _)
  | succ fuel ih =>
    intro cs p h hlen
    cases cs with
    | nil =>
      have hp : p = none := h
      subst hp
      simp [elementsLoop]
    | cons c cs =>
      obtain ⟨b, x⟩ := c
      obtain ⟨hp, q, hq, hc⟩ := h
      subst hp
      have hlen1 : cs.length < fuel := by simpa using hlen
      simp [elementsLoop, deref_some hq, ih hc hlen1]

theorem rep_elements {l : LinkedList} {cs : List (Nat × Int)} (h : Rep l cs) :
    l.elements = .ok (cs.map Prod.snd) :=
  elementsLoop_chain _ h.chain (Nat.lt_succ_of_le (chain_length_le h.chain h.nodup))

theorem foldl_render (xs : List Int) :
    ∀ out : String,
      xs.foldl (fun o x => o ++ toString x ++ " -> ") out = out ++ renderElems xs := by
  induction xs with
  | nil => intro out; simp [renderElems]
  | cons x xs ih =>
    intro out
    rw [List.foldl_cons, ih, renderElems]
    simp only [String.append_assoc]

theorem foldl_append_init (ss : List String) :
    ∀ init : String,
      ss.foldl (fun r s => r ++ s) init = init ++ ss.foldl (fun r s => r ++ s) "" := by
  induction ss with
  | nil => intro init; simp
  | cons s ss ih =>
    intro init
    rw [List.foldl_cons, List.foldl_cons, ih (init ++ s), ih ("" ++ s)]
    simp [String.append_assoc]

theorem renderElems_eq_join (xs : List Int) :
    renderElems xs = String.join (xs.map (fun x => toString x ++ " -> ")) := by
  induction xs with
  | nil => rfl
  | cons x xs ih =>
    rw [renderElems, ih]
    simp only [String.join, List.map_cons, List.foldl_cons]
    rw [foldl_append_init _ ("" ++ (toString x ++ " -> "))]
    simp

theorem rep_print {l : LinkedList} {cs : List (Nat × Int)} (h : Rep l cs) :
    l.print = .ok (l, render (cs.map Prod.snd)) := by
  unfold LinkedList.print render
  rw [printLoop_chain _ "" h.chain (Nat.lt_succ_of_le (chain_length_le h.chain h.nodup)),
    foldl_render]
  simp

theorem rep_unique {l : LinkedList} {cs cs1 : List (Nat × Int)} (h : Rep l cs)
    (h1 : Rep l cs1) : cs = cs1 :=
  chain_unique h.chain h1.chain

theorem rep_new : Rep LinkedList.new [] :=
  ⟨rfl, List.nodup_nil, rfl⟩

theorem rep_head_none_iff {l : LinkedList} {cs : List (Nat × Int)} (h : Rep l cs) :
    l.head = none ↔ cs = [] := by
  constructor
  · intro hn
    have hc := h.chain
    rw [hn] at hc
    exact chain_head_none hc
  · intro hcs
    subst hcs
    exact h.chain

/-- Closed form of `insertAtHead`, on every state. -/
theorem insertAtHead_eq (l : LinkedList) (v : Int) :
    l.insertAtHead v
      = .ok ⟨l.heap ++ [⟨v, l.head⟩], some l.heap.length,
              if l.head = none then some l.heap.length else l.tail⟩ := by
  unfold LinkedList.insertAtHead
  by_cases hh : l.head = none
  · simp [hh, Node.new]
  · have hget : (l.heap ++ [Node.new v])[l.heap.length]? = some (Node.new v) :=
      List.getElem?_concat_length _ _
    simp only [hh, if_false, setNext_some hget]
    simp [Node.new, List.set_append_right]

theorem rep_insertAtHead {l : LinkedList} {cs : List (Nat × Int)} (h : Rep l cs) (v : Int) :
    ∃ l1, l.insertAtHead v = .ok l1 ∧ Rep l1 ((l.heap.length, v) :: cs) := by
  refine ⟨_, insertAtHead_eq l v, ?_, ?_, ?_⟩
  · refine ⟨rfl, l.head, List.getElem?_concat_length _ _, ?_⟩
    refine chain_congr h.chain (fun a ha => ?_)
    exact List.getElem?_append_left (chain_lt h.chain a ha)
  · rw [List.map_cons, List.nodup_cons]
    refine ⟨fun hmem => ?_, h.nodup⟩
    exact absurd (chain_lt h.chain _ hmem) (Nat.lt_irrefl _)
  · show (if l.head = none then some l.heap.length else l.tail) = _
    by_cases hh : l.head = none
    · have hcs := (rep_head_none_iff h).mp hh
      subst hcs
      simp [hh]
    · have hcs : cs ≠ [] := fun hcs => hh ((rep_head_none_iff h).mpr hcs)
      obtain ⟨c, cs1, rfl⟩ := List.exists_cons_of_ne_nil hcs
      simp only [hh, if_false, h.last, List.map_cons, List.getLast?_cons_cons]

theorem chain_last_node {heap : List Node} {t : Nat} {x : Int} :
    ∀ {cs : List (Nat × Int)} {p : Option Nat}, Chain heap p (cs ++ [(t, x)]) →
      heap[t]? = some ⟨x, none⟩ := by
  intro cs
  induction cs with
  | nil =>
    intro p h
    obtain ⟨_, q, hq, hc⟩ := h
    have hqn : q = none := hc
    rw [hq, hqn]
  | cons c cs ih =>
    obtain ⟨b, y⟩ := c
    intro p h
    obtain ⟨_, q, _, hc⟩ := h
    exact ih hc

theorem chain_snoc {heap : List Node} (heap1 : List Node) {t : Nat} (n : Nat) {x : Int}
    (v : Int)
    (ht : heap1[t]? = some ⟨x, some n⟩) (hn : heap1[n]? = some ⟨v, none⟩) :
    ∀ {cs : List (Nat × Int)} {p : Option Nat}, Chain heap p (cs ++ [(t, x)]) →
      (∀ a ∈ cs.map Prod.fst, heap1[a]? = heap[a]?) →
      Chain heap1 p (cs ++ [(t, x), (n, v)]) := by
  intro cs
  induction cs with
  | nil =>
    intro p h _
    obtain ⟨hp, _, _, _⟩ := h
    exact ⟨hp, some n, ht, rfl, none, hn, rfl⟩
  | cons c cs ih =>
    obtain ⟨b, y⟩ := c
    intro p h hframe
    obtain ⟨hp, q, hq, hc⟩ := h
    refine ⟨hp, q, ?_, ih hc (fun a ha => hframe a (by simp [ha]))⟩
    rw [hframe b (by simp), hq]

theorem rep_insertAtTail {l : LinkedList} {cs : List (Nat × Int)} (h : Rep l cs) (v : Int) :
    ∃ l1, l.insertAtTail v = .ok l1 ∧ Rep l1 (cs ++ [(l.heap.length, v)]) ∧
      l1.head = (if l.head = none then some l.heap.length else l.head) ∧
      l1.tail = some l.heap.length ∧ l1.heap.length = l.heap.length + 1 := by
  rcases List.eq_nil_or_concat cs with hcs | ⟨cs0, c, hcs⟩
  · subst hcs
    have hh : l.head = none := h.chain
    refine ⟨⟨l.heap ++ [Node.new v], some l.heap.length, some l.heap.length⟩, ?_, ?_, ?_, rfl, ?_⟩
    · simp [LinkedList.insertAtTail, hh]
    · exact ⟨⟨rfl, none, List.getElem?_concat_length _ _, rfl⟩, by simp, rfl⟩
    · simp [hh]
    · simp
  · obtain ⟨t, x⟩ := c
    rw [List.concat_eq_append] at hcs
    subst hcs
    have hh : l.head ≠ none := fun hn => by
      have := (rep_head_none_iff h).mp hn
      simp at this
    have htail : l.tail = some t := by
      rw [h.last]; simp
    have hnode := chain_last_node h.chain
    have htlt : t < l.heap.length := (List.getElem?_eq_some.mp hnode).1
    have hget : (l.heap ++ [Node.new v])[t]? = some ⟨x, none⟩ := by
      rw [List.getElem?_append_left htlt, hnode]
    have hnd := h.nodup
    rw [List.map_append, List.nodup_append] at hnd
    obtain ⟨hnd0, _, hdisj⟩ := hnd
    refine ⟨⟨(l.heap ++ [Node.new v]).set t ⟨x, some l.heap.length⟩, l.head,
      some l.heap.length⟩, ?_, ⟨?_, ?_, ?_⟩, ?_, rfl, ?_⟩
    · simp [LinkedList.insertAtTail, hh, htail, setNext_some hget]
    · have := chain_snoc ((l.heap ++ [Node.new v]).set t ⟨x, some l.heap.length⟩)
        l.heap.length v ?_ ?_ h.chain ?_
      · simpa using this
      · rw [List.getElem?_set_self (by simp; omega)]
      · rw [List.getElem?_set_ne (Nat.ne_of_lt htlt)]
        exact List.getElem?_concat_length _ _
      · intro a ha
        have hat : t ≠ a := fun e => hdisj ha (by simp [e])
        have halt : a < l.heap.length := chain_lt h.chain a (by simp at ha ⊢; exact Or.inl ha)
        rw [List.getElem?_set_ne hat, List.getElem?_append_left halt]
    · have hnew : l.heap.length ∉ (cs0 ++ [(t, x)]).map Prod.fst := fun hmem =>
        absurd (chain_lt h.chain _ hmem) (Nat.lt_irrefl _)
      rw [List.map_append, List.nodup_append]
      refine ⟨h.nodup, by simp, ?_⟩
      intro a ha ha1
      simp at ha1
      subst ha1
      exact hnew ha
    · show some l.heap.length = _
      simp
    · simp [hh]
    · simp

/-- The loop of `insertAtPos` never changes the free store: inside the loop
`cnt < pos-1`, so the guard `cnt == pos` of the splice is false. -/
theorem insertAtPosLoop_ok_eq :
    ∀ (fuel : Nat) (heap : List Node) (temp curr : Option Nat) (cnt pos : Int)
      (heap1 : List Node),
      insertAtPosLoop fuel heap temp curr cnt pos = .ok heap1 → heap1 = heap := by
  intro fuel
  induction fuel with
  | zero => intro heap temp curr cnt pos heap1 h; simp [insertAtPosLoop] at h
  | succ fuel ih =>
    intro heap temp curr cnt pos heap1 h
    unfold insertAtPosLoop at h
    by_cases hc : curr = none
    · simp only [hc, if_true] at h
      exact (Except.ok.inj h).symm
    · by_cases ho : pos - 1 < INT_MIN
      · simp [hc, ho] at h
      · by_cases hlt : cnt < pos - 1
        · have hne : cnt ≠ pos := by omega
          simp only [hc, ho, hlt, hne, if_true, if_false] at h
          cases hd : deref heap curr with
          | error e => simp [hd] at h
          | ok c =>
            simp only [hd] at h
            by_cases hov : INT_MAX < cnt + 1
            · simp [hov] at h
            · simp only [hov, if_false] at h
              exact ih _ _ _ _ _ _ h
        · simp only [hc, ho, hlt, if_false] at h
          exact (Except.ok.inj h).symm

/-- On a chain that ends in `NULL`, with `pos` a 32-bit `int` whose `pos-1`
does not overflow (or with nothing to walk), the loop of `insertAtPos` ends
within `pos-1-cnt` iterations and leaves the free store as it was. -/
theorem insertAtPosLoop_chain {heap : List Node} (temp : Option Nat) {pos : Int}
    (hmax : pos ≤ INT_MAX) :
    ∀ (fuel : Nat) {cs : List (Nat × Int)} {curr : Option Nat} (cnt : Int),
      Chain heap curr cs → (INT_MIN < pos ∨ curr = none) → (pos - 1 - cnt).toNat < fuel →
      insertAtPosLoop fuel heap temp curr cnt pos = .ok heap := by
  intro fuel
  induction fuel with
  | zero => intro cs curr cnt _ _ hf; exact absurd hf (Nat.not_lt_zero _)
  | succ fuel ih =>
    intro cs curr cnt h hmin hf
    unfold insertAtPosLoop
    cases cs with
    | nil =>
      have hp : curr = none := h
      simp [hp]
    | cons c cs =>
      obtain ⟨b, x⟩ := c
      obtain ⟨hp, q, hq, hc⟩ := h
      subst hp
      have hmin1 : INT_MIN < pos := by
        rcases hmin with hm | hm
        · exact hm
        · exact absurd hm (by simp)
      have ho : ¬ (pos - 1 < INT_MIN) := by omega
      by_cases hlt : cnt < pos - 1
      · have hne : cnt ≠ pos := by omega
        have hov : ¬ (INT_MAX < cnt + 1) := by omega
        have hf1 : (pos - 1 - (cnt + 1)).toNat < fuel := by omega
        simp only [ho, hlt, hne, hov, if_true, if_false, deref_some hq]
        simpa using ih (cnt + 1) hc (Or.inl hmin1) hf1
      · simp [ho, hlt]

theorem rep_extend {l : LinkedList} {cs : List (Nat × Int)} (h : Rep l cs)
    (ns : List Node) : Rep ⟨l.heap ++ ns, l.head, l.tail⟩ cs :=
  ⟨chain_congr h.chain (fun a ha => List.getElem?_append_left (chain_lt h.chain a ha)),
    h.nodup, h.last⟩

/-- Whenever `insertAtPos` returns with `pos != 1`, the only change is the
allocation of the node `temp`, which no pointer of the list refers to. -/
theorem insertAtPos_ok_shape {l l1 : LinkedList} {pos v : Int} (hpos : pos ≠ 1)
    (h : l.insertAtPos pos v = .ok l1) :
    l1 = ⟨l.heap ++ [Node.new v], l.head, l.tail⟩ := by
  unfold LinkedList.insertAtPos at h
  simp only [hpos, if_false] at h
  cases hloop : insertAtPosLoop ((pos - 2).toNat + 1) (l.heap ++ [Node.new v])
      (some l.heap.length) l.head 1 pos with
  | error e => simp [hloop] at h
  | ok heap1 =>
    simp only [hloop] at h
    rw [insertAtPosLoop_ok_eq _ _ _ _ _ _ _ hloop] at h
    exact (Except.ok.inj h).symm

theorem rep_insertAtPos_noop {l : LinkedList} {cs : List (Nat × Int)} (h : Rep l cs)
    {pos : Int} (v : Int) (hpos : pos ≠ 1) (hmax : pos ≤ INT_MAX)
    (hmin : INT_MIN < pos ∨ l.head = none) :
    l.insertAtPos pos v = .ok ⟨l.heap ++ [Node.new v], l.head, l.tail⟩ := by
  unfold LinkedList.insertAtPos
  simp only [hpos, if_false]
  rw [insertAtPosLoop_chain (some l.heap.length) hmax _ 1 (rep_extend h [Node.new v]).chain
    hmin (by omega)]

theorem rep_call {l l1 : LinkedList} {cs : List (Nat × Int)} (h : Rep l cs) (op : Op)
    (hc : l.call op = .ok l1) : ∃ cs1, Rep l1 cs1 := by
  cases op with
  | atHead d =>
    obtain ⟨l2, h2, hr⟩ := rep_insertAtHead h d
    have : l1 = l2 := Except.ok.inj (hc.symm.trans h2)
    exact ⟨_, this ▸ hr⟩
  | atTail d =>
    obtain ⟨l2, h2, hr, _⟩ := rep_insertAtTail h d
    have : l1 = l2 := Except.ok.inj (hc.symm.trans h2)
    exact ⟨_, this ▸ hr⟩
  | atPos p d =>
    by_cases hp : p = 1
    · obtain ⟨l2, h2, hr⟩ := rep_insertAtHead h d
      have hc1 : l.insertAtHead d = .ok l1 := by
        simpa [LinkedList.call, LinkedList.insertAtPos, hp] using hc
      have : l1 = l2 := Except.ok.inj (hc1.symm.trans h2)
      exact ⟨_, this ▸ hr⟩
    · have := insertAtPos_ok_shape hp hc
      exact ⟨cs, this ▸ rep_extend h _⟩

theorem rep_calls :
    ∀ (ops : List Op) {l l1 : LinkedList} {cs : List (Nat × Int)}, Rep l cs →
      l.calls ops = .ok l1 → ∃ cs1, Rep l1 cs1 := by
  intro ops
  induction ops with
  | nil =>
    intro l l1 cs h hc
    have : l = l1 := Except.ok.inj hc
    exact ⟨cs, this ▸ h⟩
  | cons op ops ih =>
    intro l l1 cs h hc
    unfold LinkedList.calls at hc
    cases hop : l.call op with
    | error e => simp [hop] at hc
    | ok l2 =>
      simp only [hop] at hc
      obtain ⟨cs2, h2⟩ := rep_call h op hop
      exact ih h2 hc

/-- Every list built from the empty list by insert calls is well formed. -/
theorem rep_of_calls {ops : List Op} {l : LinkedList}
    (h : LinkedList.new.calls ops = .ok l) : ∃ cs, Rep l cs :=
  rep_calls ops rep_new h

theorem calls_atHead (vs : List Int) :
    ∀ {l : LinkedList} {cs : List (Nat × Int)}, Rep l cs →
      ∃ l1 cs1, l.calls (vs.map Op.atHead) = .ok l1 ∧ Rep l1 cs1 ∧
        cs1.map Prod.snd = vs.reverse ++ cs.map Prod.snd := by
  induction vs with
  | nil => intro l cs h; exact ⟨l, cs, rfl, h, by simp⟩
  | cons v vs ih =>
    intro l cs h
    obtain ⟨l2, h2, hr⟩ := rep_insertAtHead h v
    obtain ⟨l1, cs1, hc, hr1, hd⟩ := ih hr
    refine ⟨l1, cs1, ?_, hr1, ?_⟩
    · simp [LinkedList.calls, LinkedList.call, h2, hc]
    · simp [hd]

theorem calls_atTail (vs : List Int) :
    ∀ {l : LinkedList} {cs : List (Nat × Int)}, Rep l cs →
      ∃ l1 cs1, l.calls (vs.map Op.atTail) = .ok l1 ∧ Rep l1 cs1 ∧
        cs1.map Prod.snd = cs.map Prod.snd ++ vs := by
  induction vs with
  | nil => intro l cs h; exact ⟨l, cs, rfl, h, by simp⟩
  | cons v vs ih =>
    intro l cs h
    obtain ⟨l2, h2, hr, _⟩ := rep_insertAtTail h v
    obtain ⟨l1, cs1, hc, hr1, hd⟩ := ih hr
    refine ⟨l1, cs1, ?_, hr1, ?_⟩
    · simp [LinkedList.calls, LinkedList.call, h2, hc]
    · simp [hd]

theorem print_of_elements :
    ∀ (fuel : Nat) (heap : List Node) (p : Option Nat) (xs : List Int) (out : String),
      elementsLoop fuel heap p = .ok xs →
      printLoop fuel heap p out = .ok (out ++ renderElems xs) := by
  intro fuel
  induction fuel with
  | zero => intro heap p xs out h; simp [elementsLoop] at h
  | succ fuel ih =>
    intro heap p xs out h
    unfold elementsLoop at h
    unfold printLoop
    by_cases hp : p = none
    · simp only [hp, if_true] at h ⊢
      have : xs = [] := (Except.ok.inj h).symm
      simp [this, renderElems]
    · simp only [hp, if_false] at h ⊢
      cases hd : deref heap p with
      | error e => simp [hd] at h
      | ok c =>
        simp only [hd] at h ⊢
        cases hrest : elementsLoop fuel heap c.next with
        | error e => simp [hrest] at h
        | ok ys =>
          simp only [hrest] at h
          have : xs = c.data :: ys := (Except.ok.inj h).symm
          rw [ih _ _ _ _ hrest, this]
          simp [renderElems, String.append_assoc]

/-! ## The properties -/

/-- C1: starting from a freshly constructed list, the calls `insertAtHead(v1)`,
..., `insertAtHead(vn)` in that order all return, and the elements then read
from `head` along `next`, as well as the text `print()` writes, are
`vn, ..., v1`: the reverse of the call order. -/
theorem insertAtHead_calls_reverse_order (vs : List Int) :
    ∃ l, LinkedList.new.calls (vs.map Op.atHead) = .ok l ∧
      l.elements = .ok vs.reverse ∧ l.print = .ok (l, render vs.reverse) := by
  obtain ⟨l, cs, hc, hr, hd⟩ := calls_atHead vs rep_new
  have hd1 : cs.map Prod.snd = vs.reverse := by simpa using hd
  exact ⟨l, hc, hd1 ▸ rep_elements hr, hd1 ▸ rep_print hr⟩

/-- C2: starting from a freshly constructed list, the calls `insertAtTail(v1)`,
..., `insertAtTail(vn)` in that order all return, and the elements then read
from `head` along `next`, as well as the text `print()` writes, are
`v1, ..., vn`: the call order. -/
theorem insertAtTail_calls_call_order (vs : List Int) :
    ∃ l, LinkedList.new.calls (vs.map Op.atTail) = .ok l ∧
      l.elements = .ok vs ∧ l.print = .ok (l, render vs) := by
  obtain ⟨l, cs, hc, hr, hd⟩ := calls_atTail vs rep_new
  have hd1 : cs.map Prod.snd = vs := by simpa using hd
  exact ⟨l, hc, hd1 ▸ rep_elements hr, hd1 ▸ rep_print hr⟩

/-- C3 (the code at the failing input): on the list with elements 1, 5, 10, 20
that the driver builds (length 4), `insertAtPos(2, 100)` returns a list whose
elements are still 1, 5, 10, 20: the value 100 is not at position 2 and the
length has not grown to 5. -/
theorem insertAtPos_two_drops_value :
    ∃ l l1, LinkedList.new.calls [.atHead 10, .atHead 5, .atHead 1, .atTail 20] = .ok l ∧
      l.elements = .ok [1, 5, 10, 20] ∧
      l.insertAtPos 2 100 = .ok l1 ∧
      l1.elements = .ok [1, 5, 10, 20] ∧ l1.elements ≠ .ok [1, 100, 5, 10, 20] :=
  ⟨⟨[⟨10, some 3⟩, ⟨5, some 0⟩, ⟨1, some 1⟩, ⟨20, none⟩], some 2, some 3⟩,
    ⟨[⟨10, some 3⟩, ⟨5, some 0⟩, ⟨1, some 1⟩, ⟨20, none⟩, ⟨100, none⟩], some 2, some 3⟩,
    rfl, rfl, rfl, rfl, by decide⟩

/-- C4: on every list built from the empty list by insert calls, for every
`pos > 1` (a 32-bit `int`) and every value, `insertAtPos(pos, value)` returns
and leaves `head`, `tail` and every node that existed before the call (its
`data` and its `next`) unchanged; the node it allocates is referred to by no
pointer; and `print()` writes after the call exactly what it wrote before. -/
theorem insertAtPos_gt_one_unchanged (ops : List Op) (l : LinkedList) (pos v : Int)
    (hl : LinkedList.new.calls ops = .ok l) (hpos : 1 < pos) (hmax : pos ≤ INT_MAX) :
    ∃ l1 out, l.insertAtPos pos v = .ok l1 ∧
      l1.head = l.head ∧ l1.tail = l.tail ∧
      l1.heap = l.heap ++ [Node.new v] ∧
      (∀ (a : Nat) (n : Node), l.heap[a]? = some n → l1.heap[a]? = some n) ∧
      l.print = .ok (l, out) ∧ l1.print = .ok (l1, out) := by
  obtain ⟨cs, hr⟩ := rep_of_calls hl
  have hmin : INT_MIN < pos := by unfold INT_MIN; omega
  refine ⟨⟨l.heap ++ [Node.new v], l.head, l.tail⟩, render (cs.map Prod.snd),
    rep_insertAtPos_noop hr v (by omega) hmax (Or.inl hmin), rfl, rfl, rfl, ?_,
    rep_print hr, rep_print (rep_extend hr _)⟩
  intro a n ha
  show (l.heap ++ [Node.new v])[a]? = some n
  rw [List.getElem?_append_left (List.getElem?_eq_some.mp ha).1, ha]

theorem insertAtPos_gt_one_unchanged_witness :
    ∃ l1 out, (⟨[⟨10, none⟩], some 0, some 0⟩ : LinkedList).insertAtPos 2 100 = .ok l1 ∧
      l1.head = some 0 ∧ l1.tail = some 0 ∧
      l1.heap = [⟨10, none⟩] ++ [Node.new 100] ∧
      (∀ (a : Nat) (n : Node), [(⟨10, none⟩ : Node)][a]? = some n → l1.heap[a]? = some n) ∧
      (⟨[⟨10, none⟩], some 0, some 0⟩ : LinkedList).print
        = .ok (⟨[⟨10, none⟩], some 0, some 0⟩, out) ∧
      l1.print = .ok (l1, out) :=
  insertAtPos_gt_one_unchanged [.atHead 10] ⟨[⟨10, none⟩], some 0, some 0⟩ 2 100 rfl
    (by decide) (by decide)

/-- C5: on every list built from the empty list by insert calls, with element
sequence `xs`, `insertAtTail(v)` returns a list with element sequence
`xs ++ [v]`; the new node holds `v`, has `next = NULL` and is the new `tail`;
if the list was empty the new node is also the new `head`, otherwise `head` is
unchanged. -/
theorem insertAtTail_appends (ops : List Op) (l : LinkedList) (v : Int)
    (hl : LinkedList.new.calls ops = .ok l) :
    ∃ xs l1, l.elements = .ok xs ∧ l.insertAtTail v = .ok l1 ∧
      l1.elements = .ok (xs ++ [v]) ∧
      l1.tail = some l.heap.length ∧ l1.heap[l.heap.length]? = some ⟨v, none⟩ ∧
      (l.head = none ↔ xs = []) ∧
      (l.head = none → l1.head = some l.heap.length) ∧
      (l.head ≠ none → l1.head = l.head) := by
  obtain ⟨cs, hr⟩ := rep_of_calls hl
  obtain ⟨l1, h1, hr1, hhead, htail, _⟩ := rep_insertAtTail hr v
  refine ⟨cs.map Prod.snd, l1, rep_elements hr, h1, ?_, htail, chain_last_node hr1.chain,
    ?_, ?_, ?_⟩
  · simpa using rep_elements hr1
  · rw [rep_head_none_iff hr]; simp
  · intro hn; simpa [hn] using hhead
  · intro hn; simpa [hn] using hhead

theorem insertAtTail_appends_witness :
    ∃ xs l1, (⟨[⟨10, none⟩], some 0, some 0⟩ : LinkedList).elements = .ok xs ∧
      (⟨[⟨10, none⟩], some 0, some 0⟩ : LinkedList).insertAtTail 20 = .ok l1 ∧
      l1.elements = .ok (xs ++ [20]) ∧
      l1.tail = some 1 ∧ l1.heap[1]? = some ⟨20, none⟩ ∧
      ((some 0 : Option Nat) = none ↔ xs = []) ∧
      ((some 0 : Option Nat) = none → l1.head = some 1) ∧
      ((some 0 : Option Nat) ≠ none → l1.head = some 0) :=
  insertAtTail_appends [.atHead 10] ⟨[⟨10, none⟩], some 0, some 0⟩ 20 rfl

/-- C6: on every list built from the empty list by insert calls, with element
sequence `xs`, `insertAtHead(v)` returns a list with element sequence
`v :: xs`; the new node holds `v` and is the new `head`; if the list was empty
the new node is also the new `tail`, otherwise `tail` is unchanged. -/
theorem insertAtHead_prepends (ops : List Op) (l : LinkedList) (v : Int)
    (hl : LinkedList.new.calls ops = .ok l) :
    ∃ xs l1, l.elements = .ok xs ∧ l.insertAtHead v = .ok l1 ∧
      l1.elements = .ok (v :: xs) ∧
      l1.head = some l.heap.length ∧ l1.heap[l.heap.length]? = some ⟨v, l.head⟩ ∧
      (l.head = none ↔ xs = []) ∧
      (l.head = none → l1.tail = some l.heap.length) ∧
      (l.head ≠ none → l1.tail = l.tail) := by
  obtain ⟨cs, hr⟩ := rep_of_calls hl
  obtain ⟨l1, h1, hr1⟩ := rep_insertAtHead hr v
  have hshape : l1 = _ := Except.ok.inj (h1.symm.trans (insertAtHead_eq l v))
  refine ⟨cs.map Prod.snd, l1, rep_elements hr, h1, ?_, ?_, ?_, ?_, ?_, ?_⟩
  · simpa using rep_elements hr1
  · rw [hshape]
  · rw [hshape]; exact List.getElem?_concat_length _ _
  · rw [rep_head_none_iff hr]; simp
  · intro hn; rw [hshape]; simp [hn]
  · intro hn; rw [hshape]; simp [hn]

theorem insertAtHead_prepends_witness :
    ∃ xs l1, (⟨[⟨10, none⟩], some 0, some 0⟩ : LinkedList).elements = .ok xs ∧
      (⟨[⟨10, none⟩], some 0, some 0⟩ : LinkedList).insertAtHead 5 = .ok l1 ∧
      l1.elements = .ok (5 :: xs) ∧
      l1.head = some 1 ∧ l1.heap[1]? = some ⟨5, some 0⟩ ∧
      ((some 0 : Option Nat) = none ↔ xs = []) ∧
      ((some 0 : Option Nat) = none → l1.tail = some 1) ∧
      ((some 0 : Option Nat) ≠ none → l1.tail = some 0) :=
  insertAtHead_prepends [.atHead 10] ⟨[⟨10, none⟩], some 0, some 0⟩ 5 rfl

/-- C7: the driver (`insertAtHead(10)`, `insertAtHead(5)`, `insertAtHead(1)`,
`insertAtTail(20)`, `insertAtPos(2,100)` on an empty list, then `print()`)
writes exactly `1 -> 5 -> 10 -> 20 -> NULL` and a line break; 100 is absent. -/
theorem main_output : main = .ok "1 -> 5 -> 10 -> 20 -> NULL\n" := rfl

/-- C8: for every list whose walk from `head` ends and gives the elements
`x1, ..., xn`, `print()` returns, writes the concatenation, in order, of each
element in decimal followed by the arrow marker, then `NULL`, then one line
break, and returns the list state (`head`, `tail` and every node) as it
received it. -/
theorem print_writes_elements (l : LinkedList) (xs : List Int) (h : l.elements = .ok xs) :
    l.print
      = .ok (l, String.join (xs.map (fun x => toString x ++ " -> ")) ++ "NULL" ++ "\n") := by
  unfold LinkedList.print
  rw [print_of_elements _ _ _ _ "" h, renderElems_eq_join]
  simp

theorem print_writes_elements_witness :
    (⟨[⟨7, some 1⟩, ⟨-3, none⟩], some 0, some 1⟩ : LinkedList).elements = .ok [7, -3] ∧
      (⟨[⟨7, some 1⟩, ⟨-3, none⟩], some 0, some 1⟩ : LinkedList).print
        = .ok (⟨[⟨7, some 1⟩, ⟨-3, none⟩], some 0, some 1⟩, "7 -> -3 -> NULL\n") :=
  ⟨rfl, print_writes_elements ⟨[⟨7, some 1⟩, ⟨-3, none⟩], some 0, some 1⟩ [7, -3] rfl⟩

/-- C9: `print()` on a freshly constructed list (`head = NULL`, `tail = NULL`)
writes only `NULL` and the line break, and leaves the list as it was. -/
theorem print_new : LinkedList.new.print = .ok (LinkedList.new, "NULL\n") := rfl

/-- C10: on every list and for every value, `insertAtPos(1, v)` does what
`insertAtHead(v)` does: both return, with the same `head`, `tail` and nodes. -/
theorem insertAtPos_one_eq_insertAtHead (l : LinkedList) (v : Int) :
    ∃ l1, l.insertAtPos 1 v = .ok l1 ∧ l.insertAtHead v = .ok l1 :=
  ⟨_, by unfold LinkedList.insertAtPos; simpa using insertAtHead_eq l v, insertAtHead_eq l v⟩

/-! ## Further lemmas: last node, call sequences, positions out of range -/

theorem lastLoop_chain {heap : List Node} :
    ∀ (fuel : Nat) {cs : List (Nat × Int)} {p : Option Nat} (prev : Option Nat),
      Chain heap p cs → cs.length < fuel →
      lastLoop fuel heap p prev = .ok ((cs.map Prod.fst).getLast?.or prev) := by
  intro fuel
  induction fuel with
  | zero => intro cs p prev _ hlen; exact absurd hlen (Nat.not_lt_zero _)
  | succ fuel ih =>
    intro cs p prev h hlen
    cases cs with
    | nil =>
      have hp : p = none := h
      subst hp
      simp [lastLoop]
    | cons c cs =>
      obtain ⟨b, x⟩ := c
      obtain ⟨hp, q, hq, hc⟩ := h
      subst hp
      have hlen1 : cs.length < fuel := by simpa using hlen
      simp only [lastLoop, deref_some hq, ih (some b) hc hlen1]
      cases hlast : (cs.map Prod.fst).getLast? <;>
        simp [List.getLast?_cons, hlast]

theorem rep_lastNode {l : LinkedList} {cs : List (Nat × Int)} (h : Rep l cs) :
    l.lastNode = .ok l.tail := by
  unfold LinkedList.lastNode
  rw [lastLoop_chain _ none h.chain (Nat.lt_succ_of_le (chain_length_le h.chain h.nodup)),
    h.last]
  simp

theorem rep_tail_none_iff {l : LinkedList} {cs : List (Nat × Int)} (h : Rep l cs) :
    l.tail = none ↔ cs = [] := by
  rw [h.last]
  simp

theorem rep_tail_node {l : LinkedList} {cs : List (Nat × Int)} (h : Rep l cs) (t : Nat)
    (ht : l.tail = some t) : ∃ x, l.heap[t]? = some ⟨x, none⟩ := by
  rcases List.eq_nil_or_concat cs with hcs | ⟨cs0, c, hcs⟩
  · subst hcs
    have := h.last
    rw [ht] at this
    simp at this
  · obtain ⟨t1, x⟩ := c
    rw [List.concat_eq_append] at hcs
    subst hcs
    have hl := h.last
    rw [ht] at hl
    simp at hl
    subst hl
    exact ⟨x, chain_last_node h.chain⟩

theorem calls_append (ops1 ops2 : List Op) :
    ∀ (l : LinkedList) {l1 : LinkedList}, l.calls ops1 = .ok l1 →
      l.calls (ops1 ++ ops2) = l1.calls ops2 := by
  induction ops1 with
  | nil =>
    intro l l1 h
    have : l = l1 := Except.ok.inj h
    simp [this]
  | cons op ops1 ih =>
    intro l l1 h
    unfold LinkedList.calls at h
    cases hop : l.call op with
    | error e => simp [hop] at h
    | ok l2 =>
      simp only [hop] at h
      simp only [List.cons_append, LinkedList.calls, hop]
      exact ih l2 h

theorem calls_headTail (ops : List Op) :
    (∀ op ∈ ops, op.isAtPos = false) →
    ∀ {l : LinkedList} {cs : List (Nat × Int)}, Rep l cs →
      ∃ l1 cs1, l.calls ops = .ok l1 ∧ Rep l1 cs1 ∧
        cs1.map Prod.snd = (headValues ops).reverse ++ cs.map Prod.snd ++ tailValues ops := by
  induction ops with
  | nil => intro _ l cs h; exact ⟨l, cs, rfl, h, by simp [headValues, tailValues]⟩
  | cons op ops ih =>
    intro hops l cs h
    have hrest : ∀ o ∈ ops, o.isAtPos = false := fun o ho => hops o (by simp [ho])
    cases op with
    | atHead d =>
      obtain ⟨l2, h2, hr⟩ := rep_insertAtHead h d
      obtain ⟨l1, cs1, hc, hr1, hd⟩ := ih hrest hr
      refine ⟨l1, cs1, ?_, hr1, ?_⟩
      · simp [LinkedList.calls, LinkedList.call, h2, hc]
      · simp [hd, headValues, tailValues]
    | atTail d =>
      obtain ⟨l2, h2, hr, _⟩ := rep_insertAtTail h d
      obtain ⟨l1, cs1, hc, hr1, hd⟩ := ih hrest hr
      refine ⟨l1, cs1, ?_, hr1, ?_⟩
      · simp [LinkedList.calls, LinkedList.call, h2, hc]
      · simp [hd, headValues, tailValues]
    | atPos p d =>
      have := hops (.atPos p d) (by simp)
      simp [Op.isAtPos] at this

/-- Calls of `insertAtHead` on a list that is not empty leave `tail` and
every existing node as they were. -/
theorem calls_atHead_frame (hs : List Int) :
    ∀ (l : LinkedList), l.head ≠ none →
      ∃ l1, l.calls (hs.map Op.atHead) = .ok l1 ∧ l1.tail = l.tail ∧
        ∀ (a : Nat) (n : Node), l.heap[a]? = some n → l1.heap[a]? = some n := by
  induction hs with
  | nil => intro l _; exact ⟨l, rfl, rfl, fun _ _ h => h⟩
  | cons h hs ih =>
    intro l hl
    obtain ⟨l1, hc, ht, hn⟩ := ih ⟨l.heap ++ [⟨h, l.head⟩], some l.heap.length,
      if l.head = none then some l.heap.length else l.tail⟩ (by simp)
    refine ⟨l1, ?_, ?_, ?_⟩
    · simp [LinkedList.calls, LinkedList.call, insertAtHead_eq, hc]
    · simpa [hl] using ht
    · intro a n ha
      apply hn
      show (l.heap ++ [⟨h, l.head⟩])[a]? = some n
      rw [List.getElem?_append_left (List.getElem?_eq_some.mp ha).1, ha]

/-- With `pos = INT_MIN` and a list that is not empty, the first test of the
loop condition computes `pos-1`, which overflows. -/
theorem insertAtPos_int_min {l : LinkedList} (v : Int) (hh : l.head ≠ none) :
    l.insertAtPos INT_MIN v = .error .signedOverflow := by
  unfold LinkedList.insertAtPos
  have h1 : (INT_MIN - 2).toNat + 1 = 1 := by unfold INT_MIN; rfl
  have h2 : ¬ (INT_MIN = 1) := by unfold INT_MIN; omega
  have h3 : INT_MIN - 1 < INT_MIN := by omega
  simp only [h2, if_false, h1]
  unfold insertAtPosLoop
  simp [hh, h3]

/-- For `pos <= 0` other than the overflow case, the loop of `insertAtPos`
is left at its first test, on every list state. -/
theorem insertAtPos_nonpos_ok (l : LinkedList) {pos : Int} (v : Int) (hpos : pos ≤ 0)
    (hmin : INT_MIN < pos ∨ l.head = none) :
    l.insertAtPos pos v = .ok ⟨l.heap ++ [Node.new v], l.head, l.tail⟩ := by
  unfold LinkedList.insertAtPos
  have h1 : (pos - 2).toNat + 1 = 1 := by omega
  have h2 : ¬ (pos = 1) := by omega
  simp only [h2, if_false, h1]
  unfold insertAtPosLoop
  by_cases hh : l.head = none
  · simp [hh]
  · have hm : INT_MIN < pos := by
      rcases hmin with hm | hm
      · exact hm
      · exact absurd hm hh
    have h3 : ¬ (pos - 1 < INT_MIN) := by omega
    have h4 : ¬ ((1 : Int) < pos - 1) := by omega
    simp [hh, h3, h4]

theorem insertAtPosLoop_eq_walk :
    ∀ (fuel : Nat) (heap : List Node) (temp curr : Option Nat) (cnt pos : Int),
      insertAtPosLoop fuel heap temp curr cnt pos = insertAtPosWalk fuel heap curr cnt pos := by
  intro fuel
  induction fuel with
  | zero => intro heap temp curr cnt pos; rfl
  | succ fuel ih =>
    intro heap temp curr cnt pos
    unfold insertAtPosLoop insertAtPosWalk
    by_cases hc : curr = none
    · simp [hc]
    · by_cases ho : pos - 1 < INT_MIN
      · simp [hc, ho]
      · by_cases hlt : cnt < pos - 1
        · have hne : cnt ≠ pos := by omega
          simp only [hc, ho, hlt, hne, if_true, if_false]
          cases hd : deref heap curr with
          | error e => rfl
          | ok c =>
            by_cases hov : INT_MAX < cnt + 1
            · simp [hov]
            · simp only [hov, if_false]
              exact ih _ _ _ _ _
        · simp [hc, ho, hlt]

/-! ## The properties, continued -/

/-- C11 (counterexample): on the one-element list built by `insertAtHead(10)`,
the out-of-range call `insertAtPos(INT_MIN, 5)` does not return with the list
unchanged: the first test of the loop condition computes `pos-1`, a signed
overflow. -/
theorem insertAtPos_int_min_one_element :
    ∃ l, LinkedList.new.calls [.atHead 10] = .ok l ∧ l.elements = .ok [10] ∧
      INT_MIN ≤ 0 ∧ l.insertAtPos INT_MIN 5 = .error .signedOverflow ∧
      ¬ ∃ l1, l.insertAtPos INT_MIN 5 = .ok l1 :=
  ⟨⟨[⟨10, none⟩], some 0, some 0⟩, rfl, rfl, by decide, rfl, by
    rintro ⟨l1, h⟩
    rw [insertAtPos_int_min 5 (by simp)] at h
    cases h⟩

/-- C11 (amended): on every list of length `L` built from the empty list by
insert calls, for every out-of-range 32-bit `pos` (`pos <= 0` or
`pos > L+1`) other than `pos = INT_MIN` on a list that is not empty,
`insertAtPos(pos, value)` returns, and `head`, `tail` and the element
sequence are the same as before the call. -/
theorem insertAtPos_out_of_range_unchanged (ops : List Op) (l : LinkedList)
    (xs : List Int) (pos v : Int)
    (hl : LinkedList.new.calls ops = .ok l) (hxs : l.elements = .ok xs)
    (hmin : INT_MIN ≤ pos) (hmax : pos ≤ INT_MAX)
    (hout : pos ≤ 0 ∨ (xs.length : Int) + 1 < pos)
    (hex : ¬ (pos = INT_MIN ∧ l.head ≠ none)) :
    ∃ l1, l.insertAtPos pos v = .ok l1 ∧ l1.head = l.head ∧ l1.tail = l.tail ∧
      l1.elements = .ok xs := by
  obtain ⟨cs, hr⟩ := rep_of_calls hl
  have hpos : pos ≠ 1 := by omega
  have hmin1 : INT_MIN < pos ∨ l.head = none := by
    by_cases hp : pos = INT_MIN
    · right
      by_contra hh
      exact hex ⟨hp, hh⟩
    · left; omega
  refine ⟨_, rep_insertAtPos_noop hr v hpos hmax hmin1, rfl, rfl, ?_⟩
  rw [rep_elements (rep_extend hr [Node.new v]), ← rep_elements hr, hxs]

theorem insertAtPos_out_of_range_unchanged_witness :
    ∃ l1, (⟨[⟨10, none⟩], some 0, some 0⟩ : LinkedList).insertAtPos 5 100 = .ok l1 ∧
      l1.head = some 0 ∧ l1.tail = some 0 ∧ l1.elements = .ok [10] :=
  insertAtPos_out_of_range_unchanged [.atHead 10] ⟨[⟨10, none⟩], some 0, some 0⟩ [10] 5 100
    rfl rfl (by decide) (by decide) (by decide) (by decide)

/-- C12 (counterexample): on the two-element list built by `insertAtTail(1)`,
`insertAtTail(2)`, the call `insertAtPos(INT_MIN, 7)` does not return: it
reaches the signed overflow in `pos-1`. -/
theorem insertAtPos_int_min_not_total :
    ∃ l, LinkedList.new.calls [.atTail 1, .atTail 2] = .ok l ∧
      INT_MIN ≤ INT_MIN ∧ INT_MIN ≤ INT_MAX ∧
      ¬ ∃ l1, l.insertAtPos INT_MIN 7 = .ok l1 :=
  ⟨⟨[⟨1, some 1⟩, ⟨2, none⟩], some 0, some 1⟩, rfl, by decide, by decide, by
    rintro ⟨l1, h⟩
    rw [insertAtPos_int_min 7 (by simp)] at h
    cases h⟩

/-- C12 (amended): on every list built from the empty list by insert calls,
`insertAtHead`, `insertAtTail` and `print` return for every value, and
`insertAtPos` returns for every value and every 32-bit `pos` other than
`pos = INT_MIN` on a list that is not empty; in that case the call reaches
the signed overflow in `pos-1`, so no call dereferences a null pointer and
no loop runs forever. -/
theorem operations_total (ops : List Op) (l : LinkedList)
    (hl : LinkedList.new.calls ops = .ok l) :
    (∀ v : Int, ∃ l1, l.insertAtHead v = .ok l1) ∧
    (∀ v : Int, ∃ l1, l.insertAtTail v = .ok l1) ∧
    (∃ out, l.print = .ok (l, out)) ∧
    (∀ pos v : Int, INT_MIN ≤ pos → pos ≤ INT_MAX → ¬ (pos = INT_MIN ∧ l.head ≠ none) →
      ∃ l1, l.insertAtPos pos v = .ok l1) ∧
    (∀ v : Int, l.head ≠ none → l.insertAtPos INT_MIN v = .error .signedOverflow) := by
  obtain ⟨cs, hr⟩ := rep_of_calls hl
  refine ⟨fun v => ⟨_, insertAtHead_eq l v⟩, fun v => ?_, ⟨_, rep_print hr⟩, ?_,
    fun v hh => insertAtPos_int_min v hh⟩
  · obtain ⟨l1, h1, _⟩ := rep_insertAtTail hr v
    exact ⟨l1, h1⟩
  · intro pos v hmin hmax hex
    by_cases hp : pos = 1
    · subst hp
      exact ⟨_, by unfold LinkedList.insertAtPos; simpa using insertAtHead_eq l v⟩
    · have hmin1 : INT_MIN < pos ∨ l.head = none := by
        by_cases hp : pos = INT_MIN
        · right
          by_contra hh
          exact hex ⟨hp, hh⟩
        · left; omega
      exact ⟨_, rep_insertAtPos_noop hr v hp hmax hmin1⟩

theorem operations_total_witness :
    (∀ v : Int, ∃ l1, (⟨[⟨1, some 1⟩, ⟨2, none⟩], some 0, some 1⟩ : LinkedList).insertAtHead v
      = .ok l1) ∧
    (∀ v : Int, ∃ l1, (⟨[⟨1, some 1⟩, ⟨2, none⟩], some 0, some 1⟩ : LinkedList).insertAtTail v
      = .ok l1) ∧
    (∃ out, (⟨[⟨1, some 1⟩, ⟨2, none⟩], some 0, some 1⟩ : LinkedList).print
      = .ok (⟨[⟨1, some 1⟩, ⟨2, none⟩], some 0, some 1⟩, out)) ∧
    (∀ pos v : Int, INT_MIN ≤ pos → pos ≤ INT_MAX →
      ¬ (pos = INT_MIN ∧ (some 0 : Option Nat) ≠ none) →
      ∃ l1, (⟨[⟨1, some 1⟩, ⟨2, none⟩], some 0, some 1⟩ : LinkedList).insertAtPos pos v
        = .ok l1) ∧
    (∀ v : Int, (some 0 : Option Nat) ≠ none →
      (⟨[⟨1, some 1⟩, ⟨2, none⟩], some 0, some 1⟩ : LinkedList).insertAtPos INT_MIN v
        = .error .signedOverflow) :=
  operations_total [.atTail 1, .atTail 2] ⟨[⟨1, some 1⟩, ⟨2, none⟩], some 0, some 1⟩ rfl

/-- C13: every sequence of `insertAtHead` and `insertAtTail` calls from the
freshly constructed list returns, and the list it reaches is well formed:
`head` is `NULL` exactly when `tail` is `NULL`, and then the chain is empty;
the walk from `head` ends (the chain visits no node twice) and the last node
it meets is `tail`, whose `next` is `NULL`. -/
theorem headTail_calls_invariant (ops : List Op) (hops : ∀ op ∈ ops, op.isAtPos = false) :
    ∃ l cs, LinkedList.new.calls ops = .ok l ∧ Rep l cs ∧
      (l.head = none ↔ l.tail = none) ∧
      (l.head = none → cs = [] ∧ l.elements = .ok []) ∧
      l.elements = .ok (cs.map Prod.snd) ∧
      l.lastNode = .ok l.tail ∧
      (∀ t : Nat, l.tail = some t → ∃ x, l.heap[t]? = some ⟨x, none⟩) := by
  obtain ⟨l, cs, hc, hr, _⟩ := calls_headTail ops hops rep_new
  refine ⟨l, cs, hc, hr, ?_, ?_, rep_elements hr, rep_lastNode hr, rep_tail_node hr⟩
  · rw [rep_head_none_iff hr, rep_tail_none_iff hr]
  · intro hh
    have hcs := (rep_head_none_iff hr).mp hh
    refine ⟨hcs, ?_⟩
    rw [rep_elements hr, hcs]
    rfl

theorem headTail_calls_invariant_witness :
    ∃ l cs, LinkedList.new.calls [.atHead 1, .atTail 2] = .ok l ∧ Rep l cs ∧
      (l.head = none ↔ l.tail = none) ∧
      (l.head = none → cs = [] ∧ l.elements = .ok []) ∧
      l.elements = .ok (cs.map Prod.snd) ∧
      l.lastNode = .ok l.tail ∧
      (∀ t : Nat, l.tail = some t → ∃ x, l.heap[t]? = some ⟨x, none⟩) :=
  headTail_calls_invariant [.atHead 1, .atTail 2] (by decide)

/-- C14 (counterexample, the negation of the claim): there is no list built
from the empty list by insert calls, no `pos` and no value for which
`insertAtPos(pos, value)` returns a list whose `tail` is not the last node
reachable from `head`. -/
theorem insertAtPos_never_breaks_tail :
    ¬ ∃ (ops : List Op) (l l1 : LinkedList) (pos v : Int),
        LinkedList.new.calls ops = .ok l ∧ l.insertAtPos pos v = .ok l1 ∧
        l1.lastNode ≠ .ok l1.tail := by
  rintro ⟨ops, l, l1, pos, v, hl, h1, hne⟩
  obtain ⟨cs, hr⟩ := rep_of_calls hl
  obtain ⟨cs1, hr1⟩ := rep_call hr (.atPos pos v) h1
  exact hne (rep_lastNode hr1)

/-- C14 (amended): the positional insert keeps the tail invariant: on every
list built from the empty list by insert calls, for every `pos` and value,
when `insertAtPos(pos, value)` returns, `tail` is the last node reachable
from `head` along `next` links, its `next` is `NULL`, and `head` is `NULL`
exactly when `tail` is. -/
theorem insertAtPos_keeps_tail_last (ops : List Op) (l l1 : LinkedList) (pos v : Int)
    (hl : LinkedList.new.calls ops = .ok l) (h1 : l.insertAtPos pos v = .ok l1) :
    l1.lastNode = .ok l1.tail ∧ (l1.head = none ↔ l1.tail = none) ∧
      (∀ t : Nat, l1.tail = some t → ∃ x, l1.heap[t]? = some ⟨x, none⟩) := by
  obtain ⟨cs, hr⟩ := rep_of_calls hl
  obtain ⟨cs1, hr1⟩ := rep_call hr (.atPos pos v) h1
  refine ⟨rep_lastNode hr1, ?_, rep_tail_node hr1⟩
  rw [rep_head_none_iff hr1, rep_tail_none_iff hr1]

theorem insertAtPos_keeps_tail_last_witness :
    (⟨[⟨10, none⟩, ⟨100, none⟩], some 0, some 0⟩ : LinkedList).lastNode = .ok (some 0) ∧
      ((some 0 : Option Nat) = none ↔ (some 0 : Option Nat) = none) ∧
      (∀ t : Nat, (some 0 : Option Nat) = some t →
        ∃ x, [(⟨10, none⟩ : Node), ⟨100, none⟩][t]? = some ⟨x, none⟩) :=
  insertAtPos_keeps_tail_last [.atHead 10] ⟨[⟨10, none⟩], some 0, some 0⟩
    ⟨[⟨10, none⟩, ⟨100, none⟩], some 0, some 0⟩ 2 100 rfl rfl

/-- C15: in a sequence of `insertAtHead` / `insertAtTail` calls from the empty
list whose most recent `insertAtTail` call is `insertAtTail(v)` (the calls
`pre` before it, only `insertAtHead` calls after it), every call returns and
`tail` is the node that call allocated, holding `v`; and after the single
call `insertAtHead(w)` on the empty list, `tail` is the sole node, holding
`w`. -/
theorem tail_is_latest_tail_insert (pre : List Op) (v : Int) (hs : List Int)
    (hpre : ∀ op ∈ pre, op.isAtPos = false) :
    (∃ l0 l1 l, LinkedList.new.calls pre = .ok l0 ∧ l0.insertAtTail v = .ok l1 ∧
      LinkedList.new.calls (pre ++ [Op.atTail v] ++ hs.map Op.atHead) = .ok l ∧
      l1.tail = some l0.heap.length ∧ l.tail = l1.tail ∧
      l.heap[l0.heap.length]? = some ⟨v, none⟩) ∧
    (∀ w : Int, ∃ l, LinkedList.new.calls [Op.atHead w] = .ok l ∧
      l.tail = some 0 ∧ l.head = some 0 ∧ l.heap = [⟨w, none⟩] ∧ l.elements = .ok [w]) := by
  constructor
  · obtain ⟨l0, cs0, hc0, hr0, _⟩ := calls_headTail pre hpre rep_new
    obtain ⟨l1, h1, hr1, hhead, htail, _⟩ := rep_insertAtTail hr0 v
    have hne : l1.head ≠ none := by
      intro hn
      have := (rep_head_none_iff hr1).mp hn
      simp at this
    obtain ⟨l, hc, ht, hn⟩ := calls_atHead_frame hs l1 hne
    refine ⟨l0, l1, l, hc0, h1, ?_, htail, ht, hn _ _ (chain_last_node hr1.chain)⟩
    rw [List.append_assoc, calls_append pre _ _ hc0]
    simp only [List.singleton_append, LinkedList.calls, LinkedList.call, h1]
    exact hc
  · intro w
    exact ⟨⟨[⟨w, none⟩], some 0, some 0⟩, rfl, rfl, rfl, rfl, rfl⟩

theorem tail_is_latest_tail_insert_witness :
    (∃ l0 l1 l, LinkedList.new.calls [.atHead 1, .atTail 2] = .ok l0 ∧
      l0.insertAtTail 3 = .ok l1 ∧
      LinkedList.new.calls ([.atHead 1, .atTail 2] ++ [Op.atTail 3] ++ [4, 5].map Op.atHead)
        = .ok l ∧
      l1.tail = some l0.heap.length ∧ l.tail = l1.tail ∧
      l.heap[l0.heap.length]? = some ⟨3, none⟩) ∧
    (∀ w : Int, ∃ l, LinkedList.new.calls [Op.atHead w] = .ok l ∧
      l.tail = some 0 ∧ l.head = some 0 ∧ l.heap = [⟨w, none⟩] ∧ l.elements = .ok [w]) :=
  tail_is_latest_tail_insert [.atHead 1, .atTail 2] 3 [4, 5] (by decide)

/-- C16: the splice branch of `insertAtPos` is dead code.  On every free
store, cursor, counter and `pos`, the loop behaves exactly as the loop with
the block `if(cnt == pos){ ... }` deleted; whenever `insertAtPos` returns
with `pos != 1`, the list is the old one plus the allocated node, with
`head`, `tail` and every old node unchanged; and on a list built from the
empty list by insert calls the chain from `head` is the same cells as before
and does not contain the new node. -/
theorem insertAtPos_splice_dead :
    (∀ (fuel : Nat) (heap : List Node) (temp curr : Option Nat) (cnt pos : Int),
      insertAtPosLoop fuel heap temp curr cnt pos = insertAtPosWalk fuel heap curr cnt pos) ∧
    (∀ (l l1 : LinkedList) (pos v : Int), pos ≠ 1 → l.insertAtPos pos v = .ok l1 →
      l1 = ⟨l.heap ++ [Node.new v], l.head, l.tail⟩) ∧
    (∀ (ops : List Op) (l l1 : LinkedList) (pos v : Int),
      LinkedList.new.calls ops = .ok l → pos ≠ 1 → l.insertAtPos pos v = .ok l1 →
      ∃ cs, Rep l cs ∧ Rep l1 cs ∧ l.heap.length ∉ cs.map Prod.fst) := by
  refine ⟨insertAtPosLoop_eq_walk, fun l l1 pos v hpos h => insertAtPos_ok_shape hpos h, ?_⟩
  intro ops l l1 pos v hl hpos h
  obtain ⟨cs, hr⟩ := rep_of_calls hl
  have hshape := insertAtPos_ok_shape hpos h
  refine ⟨cs, hr, hshape ▸ rep_extend hr _, fun hmem => ?_⟩
  exact absurd (chain_lt hr.chain _ hmem) (Nat.lt_irrefl _)

theorem insertAtPos_splice_dead_witness :
    ∃ cs, Rep ⟨[⟨10, none⟩], some 0, some 0⟩ cs ∧
      Rep ⟨[⟨10, none⟩, ⟨100, none⟩], some 0, some 0⟩ cs ∧
      (1 : Nat) ∉ cs.map Prod.fst :=
  insertAtPos_splice_dead.2.2 [.atHead 10] ⟨[⟨10, none⟩], some 0, some 0⟩
    ⟨[⟨10, none⟩, ⟨100, none⟩], some 0, some 0⟩ 2 100 rfl (by decide) rfl

/-- C17 (counterexample): on the one-element list built by `insertAtHead(10)`,
`insertAtPos(0, 5)` returns, with the element sequence unchanged: with
`pos = 0` the loop condition `1 < pos-1` is false at its first test, and no
undefined operation is reached. -/
theorem insertAtPos_zero_returns :
    ∃ l l1, LinkedList.new.calls [.atHead 10] = .ok l ∧ (0 : Int) ≤ 0 ∧ INT_MIN ≤ 0 ∧
      l.insertAtPos 0 5 = .ok l1 ∧ l1.elements = .ok [10] :=
  ⟨⟨[⟨10, none⟩], some 0, some 0⟩, ⟨[⟨10, none⟩, ⟨5, none⟩], some 0, some 0⟩,
    rfl, by decide, by decide, rfl, rfl⟩

/-- C17 (amended): for a 32-bit `pos <= 0` and every list, `insertAtPos(pos,
value)` reaches an undefined operation exactly when `pos = INT_MIN` and the
list is not empty (the signed overflow in `pos-1`); for every other
`pos <= 0` it returns, having only allocated a node that nothing refers to. -/
theorem insertAtPos_nonpositive (l : LinkedList) (pos v : Int) (hpos : pos ≤ 0)
    (hmin : INT_MIN ≤ pos) :
    (pos = INT_MIN ∧ l.head ≠ none → l.insertAtPos pos v = .error .signedOverflow) ∧
    (¬ (pos = INT_MIN ∧ l.head ≠ none) →
      l.insertAtPos pos v = .ok ⟨l.heap ++ [Node.new v], l.head, l.tail⟩) := by
  constructor
  · rintro ⟨hp, hh⟩
    subst hp
    exact insertAtPos_int_min v hh
  · intro hex
    apply insertAtPos_nonpos_ok l v hpos
    by_cases hp : pos = INT_MIN
    · right
      by_contra hh
      exact hex ⟨hp, hh⟩
    · left; omega

theorem insertAtPos_nonpositive_witness :
    ((-3 : Int) = INT_MIN ∧ (some 0 : Option Nat) ≠ none →
      (⟨[⟨10, none⟩], some 0, some 0⟩ : LinkedList).insertAtPos (-3) 5
        = .error .signedOverflow) ∧
    (¬ ((-3 : Int) = INT_MIN ∧ (some 0 : Option Nat) ≠ none) →
      (⟨[⟨10, none⟩], some 0, some 0⟩ : LinkedList).insertAtPos (-3) 5
        = .ok ⟨[⟨10, none⟩] ++ [Node.new 5], some 0, some 0⟩) :=
  insertAtPos_nonpositive ⟨[⟨10, none⟩], some 0, some 0⟩ (-3) 5 (by decide) (by decide)

/-- C18: every sequence of `insertAtHead` and `insertAtTail` calls from the
empty list, interleaved in any order, returns, and the elements read from
`head` (and the text `print()` writes) are the values passed to
`insertAtHead` in reverse call order followed by the values passed to
`insertAtTail` in call order; and on every list built from the empty list by
insert calls, `insertAtHead(a)` then `insertAtTail(b)` gives the same
elements and the same printed text as `insertAtTail(b)` then
`insertAtHead(a)`. -/
theorem headTail_calls_elements (ops : List Op) (hops : ∀ op ∈ ops, op.isAtPos = false) :
    (∃ l, LinkedList.new.calls ops = .ok l ∧
      l.elements = .ok ((headValues ops).reverse ++ tailValues ops) ∧
      l.print = .ok (l, render ((headValues ops).reverse ++ tailValues ops))) ∧
    (∀ (ops0 : List Op) (l : LinkedList) (a b : Int), LinkedList.new.calls ops0 = .ok l →
      ∃ l1 l2 l3 l4 xs out,
        l.insertAtHead a = .ok l1 ∧ l1.insertAtTail b = .ok l2 ∧
        l.insertAtTail b = .ok l3 ∧ l3.insertAtHead a = .ok l4 ∧
        l2.elements = .ok xs ∧ l4.elements = .ok xs ∧
        l2.print = .ok (l2, out) ∧ l4.print = .ok (l4, out)) := by
  constructor
  · obtain ⟨l, cs, hc, hr, hd⟩ := calls_headTail ops hops rep_new
    have hd1 : cs.map Prod.snd = (headValues ops).reverse ++ tailValues ops := by
      simpa using hd
    exact ⟨l, hc, hd1 ▸ rep_elements hr, hd1 ▸ rep_print hr⟩
  · intro ops0 l a b hl
    obtain ⟨cs, hr⟩ := rep_of_calls hl
    obtain ⟨l1, h1, hr1⟩ := rep_insertAtHead hr a
    obtain ⟨l2, h2, hr2, _⟩ := rep_insertAtTail hr1 b
    obtain ⟨l3, h3, hr3, _⟩ := rep_insertAtTail hr b
    obtain ⟨l4, h4, hr4⟩ := rep_insertAtHead hr3 a
    refine ⟨l1, l2, l3, l4, a :: (cs.map Prod.snd ++ [b]),
      render (a :: (cs.map Prod.snd ++ [b])), h1, h2, h3, h4, ?_, ?_, ?_, ?_⟩
    · simpa using rep_elements hr2
    · simpa using rep_elements hr4
    · simpa using rep_print hr2
    · simpa using rep_print hr4

theorem headTail_calls_elements_witness :
    (∃ l, LinkedList.new.calls [.atHead 1, .atTail 2, .atHead 3, .atTail 4] = .ok l ∧
      l.elements
        = .ok ((headValues [.atHead 1, .atTail 2, .atHead 3, .atTail 4]).reverse
            ++ tailValues [.atHead 1, .atTail 2, .atHead 3, .atTail 4]) ∧
      l.print
        = .ok (l, render ((headValues [.atHead 1, .atTail 2, .atHead 3, .atTail 4]).reverse
            ++ tailValues [.atHead 1, .atTail 2, .atHead 3, .atTail 4]))) ∧
    (∀ (ops0 : List Op) (l : LinkedList) (a b : Int), LinkedList.new.calls ops0 = .ok l →
      ∃ l1 l2 l3 l4 xs out,
        l.insertAtHead a = .ok l1 ∧ l1.insertAtTail b = .ok l2 ∧
        l.insertAtTail b = .ok l3 ∧ l3.insertAtHead a = .ok l4 ∧
        l2.elements = .ok xs ∧ l4.elements = .ok xs ∧
        l2.print = .ok (l2, out) ∧ l4.print = .ok (l4, out)) :=
  headTail_calls_elements [.atHead 1, .atTail 2, .atHead 3, .atTail 4] (by decide)

end LinkedListCpp
